import Mathlib

/-!
Verification development for the item-resolution pipeline of the Ocaso bot
(src/app.py): quantity extraction, fuzzy catalog matching, item resolution,
the correction engine, the review/discount state machine, and catalog row
coercion.  Python strings are modelled as Lean strings (lists of chars);
Python floats are modelled as rationals; the rapidfuzz scorer fuzz.WRatio,
a library the repository only calls, is an abstract parameter
score : String → String → ℚ of every function that uses it, applied
exactly where the source applies it.
-/

namespace OcasoBot

/-- Whitespace set of Python regular expressions and str.strip for ASCII
text (space, tab, newline, carriage return, vertical tab, form feed). -/
def pySpace (c : Char) : Bool :=
  c = ' ' || c = '\t' || c = '\n' || c = '\r' || c = Char.ofNat 11 || c = Char.ofNat 12

/-- ASCII lower-casing of one character, model of Python str.lower on the
ASCII inputs the bot manipulates. -/
def lowerChar (c : Char) : Char :=
  if 'A' ≤ c ∧ c ≤ 'Z' then Char.ofNat (c.toNat + 32) else c

/-- Model of Python str.lower (ASCII scope). -/
def pyLower (s : String) : String :=
  String.mk (s.data.map lowerChar)

/-- Model of Python str.strip on a character list: drop trailing then
leading whitespace. -/
def pyStrip (l : List Char) : List Char :=
  ((l.reverse.dropWhile pySpace).reverse).dropWhile pySpace

/-- Model of Python str.strip on strings. -/
def pyStripStr (s : String) : String :=
  String.mk (pyStrip s.data)

/-- Numeric value of a digit string, model of Python int() on the digit
groups captured by the quantity pattern. -/
def digitsVal (l : List Char) : Nat :=
  l.foldl (fun n c => 10 * n + (c.toNat - 48)) 0

/-!
Model of the compiled pattern QTY_PAT from src/app.py line 94,
case-insensitive, with Python leftmost-match and leftmost-alternative
semantics:

  first alternative   : the letter x, then greedy whitespace, then digits;
  second alternative  : digits, then greedy whitespace, then an optional
                        unit group u|unid|unidades.  Since the regex engine
                        tries the branch u first and the whole pattern ends
                        there, the optional group consumes exactly one
                        letter u when present.

matchAt returns (captured quantity value, total match length) for a match
anchored at the head of the list, or none.
-/

/-- First alternative of QTY_PAT anchored at the head. -/
def matchAlt1 : List Char → Option (Nat × Nat)
  | [] => none
  | c :: cs =>
    if c = 'x' ∨ c = 'X' then
      let d := (cs.dropWhile pySpace).takeWhile Char.isDigit
      if d = [] then none
      else some (digitsVal d, 1 + (cs.takeWhile pySpace).length + d.length)
    else none

/-- Second alternative of QTY_PAT anchored at the head. -/
def matchAlt2 (l : List Char) : Option (Nat × Nat) :=
  let d := l.takeWhile Char.isDigit
  if d = [] then none
  else
    let r1 := l.dropWhile Char.isDigit
    let u : Nat :=
      match r1.dropWhile pySpace with
      | c :: _ => if c = 'u' ∨ c = 'U' then 1 else 0
      | [] => 0
    some (digitsVal d, d.length + (r1.takeWhile pySpace).length + u)

/-- QTY_PAT anchored at the head: the first alternative is tried first,
exactly as the regex engine orders alternatives. -/
def matchAt (l : List Char) : Option (Nat × Nat) :=
  match matchAlt1 l with
  | some r => some r
  | none => matchAlt2 l

/-- Leftmost QTY_PAT match in the list: captured quantity value of the
first position where the pattern matches (model of QTY_PAT.search). -/
def qtySearch : List Char → Option Nat
  | [] => none
  | c :: cs =>
    match matchAt (c :: cs) with
    | some r => some r.1
    | none => qtySearch cs

/-- Model of QTY_PAT.sub applied to the list: every non-overlapping match
is deleted, scanning left to right and resuming after each match.  The
second argument counts characters of the current match still to skip. -/
def qtySubAux : List Char → Nat → List Char
  | [], _ => []
  | _ :: cs, Nat.succ skip => qtySubAux cs skip
  | c :: cs, 0 =>
    match matchAt (c :: cs) with
    | some r => qtySubAux cs (r.2 - 1)
    | none => c :: qtySubAux cs 0

/-- Translation of extract_qty (src/app.py lines 100-106): if QTY_PAT has a
match, every match is removed by sub, the remainder is stripped and the
quantity is max(captured value, 1); with no match the string is returned
untouched with quantity 1. -/
def extract_qty (s : String) : String × Nat :=
  match qtySearch s.data with
  | none => (s, 1)
  | some q => (String.mk (pyStrip (qtySubAux s.data 0)), Nat.max q 1)

/-- Separator set of ITEM_SEP (src/app.py line 93): comma, newline,
semicolon. -/
def isSep (c : Char) : Bool :=
  c = ',' || c = '\n' || c = ';'

/-- Splitting on individual separator characters.  re.split on the
one-or-more pattern only differs from this by extra empty pieces, which the
callers filter out below, so the observable fragment lists agree. -/
def splitSepsAux : List Char → List Char → List (List Char)
  | [], acc => [acc.reverse]
  | c :: cs, acc =>
    if isSep c then acc.reverse :: splitSepsAux cs [] else splitSepsAux cs (c :: acc)

/-- Stripped, non-empty pieces of the separator split, as both split_parts
and apply_corrections compute them. -/
def cleanPieces (s : String) : List String :=
  (((splitSepsAux s.data []).map pyStrip).filter (fun l => l ≠ [])).map String.mk

/-- Translation of split_parts (src/app.py lines 96-98): the filtered
pieces, or the whole stripped text as a single fragment when nothing
survives the filter. -/
def split_parts (s : String) : List String :=
  match cleanPieces s with
  | [] => [String.mk (pyStrip s.data)]
  | parts => parts

/-- Line splitting of apply_corrections (src/app.py line 321): same
separator rule, but with no single-fragment fallback. -/
def split_lines (s : String) : List String :=
  cleanPieces s

/-- Catalog row as fetch_catalog returns it: product name and price. -/
structure CatalogEntry where
  producto : String
  precio : ℚ
deriving DecidableEq

instance : Inhabited CatalogEntry := ⟨⟨"", 0⟩⟩

/-- A resolved line item: catalog entry and quantity. -/
abbrev Item := CatalogEntry × Nat

/-- Translation of best_match (src/app.py lines 108-116): lower-case the
query, scan the catalog keeping the strictly best score (so the first
candidate wins ties), starting from best = None, best_score = -1, and
return the best row only when its score reaches 80. -/
def best_match (score : String → String → ℚ) (query : String)
    (catalog : List CatalogEntry) : Option CatalogEntry :=
  let q := pyLower query
  let r := catalog.foldl
    (fun (acc : Option CatalogEntry × ℚ) row =>
      if score q (pyLower row.producto) > acc.2 then (some row, score q (pyLower row.producto))
      else acc)
    (none, -1)
  if r.2 ≥ 80 then r.1 else none

/-- Warning text built by parse_items for an unresolved fragment. -/
def warnMsg (part : String) : String :=
  "⚠️ No entendí “" ++ part ++ "”."

/-- Per-fragment step of parse_items: resolve the cleaned description, and
append either the item or the warning. -/
def resolveStep (score : String → String → ℚ) (catalog : List CatalogEntry)
    (acc : List Item × List String) (part : String) : List Item × List String :=
  match best_match score (extract_qty part).1 catalog with
  | some m => (acc.1 ++ [(m, (extract_qty part).2)], acc.2)
  | none => (acc.1, acc.2 ++ [warnMsg part])

/-- Translation of parse_items (src/app.py lines 118-125). -/
def parse_items (score : String → String → ℚ) (text : String)
    (catalog : List CatalogEntry) : List Item × List String :=
  (split_parts text).foldl (resolveStep score catalog) ([], [])

/-- Model of the removal-line pattern of apply_corrections (src/app.py
line 323), an anchored case-insensitive match of the literal eliminar, one
or more whitespace characters, then a non-empty remainder; the returned
target is already stripped as the source strips group(1).  The remainder
condition reproduces the regex exactly: the eight letters must be followed
by a whitespace character and at least one further character. -/
def parseRemoval (ln : String) : Option String :=
  let l := ln.data
  if (l.take 8).map lowerChar = "eliminar".data then
    match l.drop 8 with
    | c :: d :: rest =>
      if pySpace c then some (String.mk (pyStrip (c :: d :: rest))) else none
    | _ => none
  else none

/-- Translation of the removal branch of apply_corrections (src/app.py
lines 325-332): scan the current items keeping index and strictly best
score starting from best_i = -1, best_score = -1, then pop the best index
when one was found. -/
def remove_best (score : String → String → ℚ) (target : String)
    (items : List Item) : List Item :=
  let t := pyLower target
  let r := items.foldl
    (fun (acc : Nat × Int × ℚ) it =>
      if score t (pyLower it.1.producto) > acc.2.2 then (acc.1 + 1, (acc.1 : Int), score t (pyLower it.1.producto))
      else (acc.1 + 1, acc.2))
    ((0 : Nat), (-1 : Int), (-1 : ℚ))
  if 0 ≤ r.2.1 then items.eraseIdx r.2.1.toNat else items

/-- Index scan of the add/update branch (src/app.py lines 337-342): first
index whose entry name equals the matched name case-insensitively. -/
def scanSameName (name : String) : List Item → Nat → Option Nat
  | [], _ => none
  | (p, _) :: rest, i =>
    if pyLower p.producto = name then some i else scanSameName name rest (i + 1)

/-- Translation of the add/update branch of apply_corrections (src/app.py
lines 334-344): extract the quantity, match against the catalog; on a
match either overwrite the quantity of the first item with the same
lower-cased name (keeping that item's own entry and position) or append
the new pair; with no match the list is left untouched. -/
def applyAddLine (score : String → String → ℚ) (catalog : List CatalogEntry)
    (items : List Item) (ln : String) : List Item :=
  match best_match score (extract_qty ln).1 catalog with
  | none => items
  | some m =>
    match scanSameName (pyLower m.producto) items 0 with
    | some i => items.set i ((items.getD i default).1, (extract_qty ln).2)
    | none => items ++ [(m, (extract_qty ln).2)]

/-- One line of the apply_corrections loop body. -/
def correction_step (score : String → String → ℚ) (catalog : List CatalogEntry)
    (items : List Item) (ln : String) : List Item :=
  match parseRemoval ln with
  | some target => remove_best score target items
  | none => applyAddLine score catalog items ln

/-- Translation of apply_corrections (src/app.py lines 319-345): split the
message into lines and fold the per-line step over the copied list. -/
def apply_corrections (score : String → String → ℚ) (current : List Item)
    (msg : String) (catalog : List CatalogEntry) : List Item :=
  (split_lines msg).foldl (fun items ln => correction_step score catalog items ln) current

/-- Read a list object out of a heap of list objects. -/
def hread (h : List (List Item)) (i : Nat) : List Item :=
  h.getD i []

/-- Heap-level rendering of apply_corrections, making the Python object
mutation explicit: the statement items = current[:] allocates a fresh list
object holding a copy of the caller's list, and every later list mutation
of the loop (items[i] = ..., items.pop, items.append) is performed on that
fresh object.  The caller's list object lives at address cur; the copy is
allocated at the fresh address h.length.  The item tuples are immutable in
Python, so element values can only be replaced, never edited in place,
which is what correction_step expresses.  The catalog is only ever read,
so it is passed (and used) by value. -/
def heap_apply_corrections (score : String → String → ℚ)
    (h : List (List Item)) (cur : Nat) (msg : String)
    (catalog : List CatalogEntry) : List (List Item) × Nat :=
  let r := h.length
  let h1 := h ++ [hread h cur]
  ((split_lines msg).foldl
      (fun hh ln => hh.set r (correction_step score catalog (hread hh r) ln)) h1,
   r)

/-- Model of the value returned by Python float() on the decimal strings
the bot handles: optional sign, integer digits, optional fractional part
introduced by a dot, surrounding whitespace stripped.  Exponent forms,
underscores, infinities and NaN are outside the model; any remainder makes
the parse fail, as float() raises ValueError. -/
def pyFloatCore (l : List Char) : Option ℚ :=
  let (sgn, l1) :=
    match l with
    | '+' :: t => ((1 : ℚ), t)
    | '-' :: t => ((-1 : ℚ), t)
    | _ => ((1 : ℚ), l)
  let ip := l1.takeWhile Char.isDigit
  let l2 := l1.dropWhile Char.isDigit
  match l2 with
  | [] => if ip = [] then none else some (sgn * (digitsVal ip : ℚ))
  | '.' :: t =>
    let fp := t.takeWhile Char.isDigit
    let l3 := t.dropWhile Char.isDigit
    if l3 = [] then
      if ip = [] ∧ fp = [] then none
      else some (sgn * ((digitsVal ip : ℚ) + (digitsVal fp : ℚ) / (10 : ℚ) ^ fp.length))
    else none
  | _ => none

/-- Python float() on a character list, whitespace stripped first. -/
def pyFloat (l : List Char) : Option ℚ :=
  pyFloatCore (pyStrip l)

/-- Translation of the discount parse (src/app.py line 435): every comma
is replaced by a dot, then the result is given to float(). -/
def parse_discount (m : String) : Option ℚ :=
  pyFloat (m.data.map (fun c => if c = ',' then '.' else c))

/-- Acceptance test of the discount branch, written from the claim: the
input must parse and the value must lie in the closed interval 0..100. -/
def discountAccepted (m : String) : Bool :=
  match parse_discount m with
  | some d => decide (0 ≤ d) && decide (d ≤ 100)
  | none => false

/-- Document flow selected by the command that opened the session. -/
inductive Flow
  | presu
  | remito
deriving DecidableEq

/-- Per-user session dictionary of the bot (context.user_data): flags for
each waiting state, the stored client name, items and catalog snapshot. -/
structure Session where
  flow : Option Flow
  askClient : Bool
  askItems : Bool
  askReview : Bool
  askDisc : Bool
  cliente : Option String
  items : Option (List Item)
  catalog : Option (List CatalogEntry)
deriving DecidableEq

/-- Session after user_data.clear(): every key absent. -/
def emptySession : Session :=
  ⟨none, false, false, false, false, none, none, none⟩

/-- Observable effect of one route_text turn. -/
inductive Reply
  | askItemsPrompt
  | itemsNotUnderstood (warnings : List String)
  | reviewList (items : List Item) (warnings : List String)
  | updatedList (items : List Item)
  | discountPrompt
  | remitoPdf (cliente : String) (items : List Item)
  | invalidDiscount
  | presupuestoPdf (d : ℚ) (cliente : String) (items : List Item)
  | help
deriving DecidableEq

/-- Affirmative token set of the review state (src/app.py line 414). -/
def affirmatives : List String :=
  ["ok", "listo", "confirmar", "sí", "si"]

/-- Translation of handle_confirm (src/app.py lines 475-498): leave the
review state; a quote flow moves to the discount question, anything else
emits the delivery note and clears the session. -/
def handle_confirm (st : Session) : Session × Reply :=
  let st1 := { st with askReview := false }
  if st1.flow = some Flow.presu then ({ st1 with askDisc := true }, Reply.discountPrompt)
  else (emptySession, Reply.remitoPdf (st1.cliente.getD "") (st1.items.getD []))

/-- Translation of route_text (src/app.py lines 375-448).  The call
fetch_catalog() is an input of the model: freshCatalog is the snapshot a
fetch would return during this turn. -/
def route_text (score : String → String → ℚ) (freshCatalog : List CatalogEntry)
    (st : Session) (text : String) : Session × Reply :=
  let msg := pyStripStr text
  if st.askClient then
    ({ st with askClient := false, askItems := true, cliente := some msg },
     Reply.askItemsPrompt)
  else if st.askItems then
    let pw := parse_items score msg freshCatalog
    if pw.1 = [] then (st, Reply.itemsNotUnderstood pw.2)
    else
      ({ st with askItems := false, askReview := true,
                 items := some pw.1, catalog := some freshCatalog },
       Reply.reviewList pw.1 pw.2)
  else if st.askReview then
    if pyLower msg ∈ affirmatives then handle_confirm st
    else
      let updated := apply_corrections score (st.items.getD []) msg (st.catalog.getD freshCatalog)
      ({ st with items := some updated }, Reply.updatedList updated)
  else if st.askDisc then
    match parse_discount msg with
    | some d =>
      if 0 ≤ d ∧ d ≤ 100 then
        (emptySession, Reply.presupuestoPdf d (st.cliente.getD "") (st.items.getD []))
      else (st, Reply.invalidDiscount)
    | none => (st, Reply.invalidDiscount)
  else (st, Reply.help)

/-- Price cell of a catalog row: a string, a number, or absent. -/
inductive PriceField
  | strVal (s : String)
  | numVal (q : ℚ)
  | absent
deriving DecidableEq

/-- Raw catalog row as the sheet delivers it. -/
structure RawRow where
  producto : String
  precio : PriceField
deriving DecidableEq

/-- Translation of the price coercion of fetch_catalog (src/app.py lines
77-83): on a string, delete every dot, then turn every comma into a dot,
then float(price or 0) - the empty string is falsy and becomes 0, an
unparseable string becomes 0.0 through the except branch; numbers pass
through; an absent cell becomes 0. -/
def coercePrice : PriceField → ℚ
  | PriceField.strVal s =>
    let t := (s.data.filter (fun c => c ≠ '.')).map (fun c => if c = ',' then '.' else c)
    if t = [] then 0 else (pyFloat t).getD 0
  | PriceField.numVal q => q
  | PriceField.absent => 0

/-- Translation of the row loop of fetch_catalog (src/app.py lines 74-85):
strip the product name, coerce the price, keep the row only when the
name is non-blank. -/
def coerceRow (r : RawRow) : Option CatalogEntry :=
  let prod := pyStrip r.producto.data
  if prod = [] then none else some ⟨String.mk prod, coercePrice r.precio⟩

/-- Row coercion over the whole sheet. -/
def build_catalog (rows : List RawRow) : List CatalogEntry :=
  rows.filterMap coerceRow

/-!
Spec-side definitions, written from the wording of the specification for
the refinement claims, to be compared with the translations above.
-/

/-- First-encountered element attaining the maximum value of f, the
tie-break the spec fixes for the matcher. -/
def firstMaxBy {α : Type} (f : α → ℚ) : List α → Option α
  | [] => none
  | a :: l =>
    match firstMaxBy f l with
    | none => some a
    | some b => if f b > f a then some b else some a

/-- Matcher as the spec words it: retain the maximum-scoring candidate
(first-encountered wins ties, names compared lower-cased) and return it
exactly when its score is at least 80. -/
def match_spec (score : String → String → ℚ) (query : String)
    (catalog : List CatalogEntry) : Option CatalogEntry :=
  match firstMaxBy (fun row => score (pyLower query) (pyLower row.producto)) catalog with
  | none => none
  | some e => if 80 ≤ score (pyLower query) (pyLower e.producto) then some e else none

/-- Index and value of the first-encountered maximum of f, the spec's
description of which current item a removal line deletes. -/
def firstMaxIV {α : Type} (f : α → ℚ) : List α → Option (Nat × ℚ)
  | [] => none
  | a :: l =>
    match firstMaxIV f l with
    | none => some (0, f a)
    | some jv => if jv.2 > f a then some (jv.1 + 1, jv.2) else some (0, f a)

/-- Accumulator the removal scan ends with, phrased against the
first-encountered maximum: scan counter aside, the best index/score pair
is the initial one when no candidate beats the initial score bs,
otherwise the index (offset by the starting counter k) and value of the
first-encountered maximum. -/
def pickBest (k : Nat) (bi : Int) (bs : ℚ) : Option (Nat × ℚ) → Int × ℚ
  | none => (bi, bs)
  | some jv => if jv.2 > bs then (((k + jv.1 : Nat) : Int), jv.2) else (bi, bs)

/-- Effect of a removal line as the spec words it: delete the item at the
first-encountered highest-scoring index; when there is none (the list is
empty) the removal is a no-op. -/
def removalResult (items : List Item) : Option (Nat × ℚ) → List Item
  | none => items
  | some jv => items.eraseIdx jv.1

/-- Item a fragment contributes when the matcher accepts its cleaned
description, as the spec words step 3 of the resolution pipeline. -/
def itemOf (score : String → String → ℚ) (catalog : List CatalogEntry)
    (part : String) : Option Item :=
  match best_match score (extract_qty part).1 catalog with
  | some m => some (m, (extract_qty part).2)
  | none => none

/-- Add/update of the correction engine as the spec words it: overwrite
the quantity of the first item with the same case-insensitive entry name,
keeping its position, else append the new pair at the end. -/
def updateOrAppend (items : List Item) (m : CatalogEntry) (q : Nat) : List Item :=
  match items with
  | [] => [(m, q)]
  | (p, oq) :: rest =>
    if pyLower p.producto = pyLower m.producto then (p, q) :: rest
    else (p, oq) :: updateOrAppend rest m q

/-!
Concrete fixtures used by witnesses and counterexamples.  eqScore is one
admissible similarity function of the abstract interface: it gives 100 to
an exact (already lower-cased) match and 0 otherwise, so it satisfies the
0..100 range contract of fuzz.WRatio, and like WRatio it gives an empty
query a score below the acceptance floor.
-/

/-- Exact-match scorer used as a concrete instance of the abstract
similarity function. -/
def eqScore (q c : String) : ℚ :=
  if q = c then 100 else 0

/-- One-row demo catalog. -/
def demoCatalog : List CatalogEntry :=
  [⟨"a", 0⟩]

/-- Catalog used by the correction-engine witnesses. -/
def remCatalog : List CatalogEntry :=
  [⟨"Remera Negra L", 10⟩]

/-- Item list used by the correction-engine witnesses. -/
def remItems : List Item :=
  [(⟨"Pantalon Cargo", 5⟩, 1), (⟨"Remera Negra L", 10⟩, 2)]

/-- Session sitting in the discount state. -/
def discSession : Session :=
  { emptySession with flow := some Flow.presu, askDisc := true,
                      cliente := some "Juan", items := some remItems }

/-!
Theorems.
-/

lemma foldl_bestAcc {α : Type} (f : α → ℚ) :
    ∀ (l : List α) (acc : Option α × ℚ),
      l.foldl (fun acc a => if f a > acc.2 then (some a, f a) else acc) acc =
        (match firstMaxBy f l with
         | none => acc
         | some e => if f e > acc.2 then (some e, f e) else acc) := by
  intro l
  induction l with
  | nil => intro acc; rfl
  | cons a t ih =>
    intro acc
    simp only [List.foldl_cons]
    rw [ih]
    cases h : firstMaxBy f t with
    | none => simp [firstMaxBy, h]
    | some b =>
      simp only [firstMaxBy, h]
      by_cases h2 : f a > acc.2
      · simp only [if_pos h2]
        by_cases h1 : f b > f a
        · simp only [if_pos h1]
          rw [if_pos (show f b > acc.2 by linarith)]
        · simp only [if_neg h1]
          rw [if_pos h2]
      · simp only [if_neg h2]
        by_cases h1 : f b > f a
        · simp only [if_pos h1]
        · simp only [if_neg h1]
          rw [if_neg (show ¬ f b > acc.2 by push_neg at h1 h2 ⊢; linarith), if_neg h2]

lemma firstMaxBy_eq_none {α : Type} (f : α → ℚ) :
    ∀ {l : List α}, firstMaxBy f l = none ↔ l = [] := by
  intro l
  cases l with
  | nil => simp [firstMaxBy]
  | cons a t =>
    simp only [firstMaxBy]
    cases h : firstMaxBy f t with
    | none => simp [h]
    | some b => simp only [h]; split <;> simp

lemma firstMaxBy_mem {α : Type} (f : α → ℚ) :
    ∀ {l : List α} {e : α}, firstMaxBy f l = some e → e ∈ l := by
  intro l
  induction l with
  | nil => intro e h; simp [firstMaxBy] at h
  | cons a t ih =>
    intro e h
    simp only [firstMaxBy] at h
    cases h2 : firstMaxBy f t with
    | none => rw [h2] at h; simp at h; simp [h]
    | some b =>
      rw [h2] at h
      simp only at h
      by_cases h1 : f b > f a
      · rw [if_pos h1] at h
        simp at h
        exact List.mem_cons_of_mem a (ih (h ▸ h2))
      · rw [if_neg h1] at h
        simp at h
        simp [h]

lemma firstMaxBy_isMax {α : Type} (f : α → ℚ) :
    ∀ {l : List α} {e : α}, firstMaxBy f l = some e → ∀ x ∈ l, f x ≤ f e := by
  intro l
  induction l with
  | nil => intro e h; simp [firstMaxBy] at h
  | cons a t ih =>
    intro e h x hx
    simp only [firstMaxBy] at h
    cases h2 : firstMaxBy f t with
    | none =>
      rw [h2] at h
      simp at h
      subst h
      have ht : t = [] := (firstMaxBy_eq_none f).mp h2
      subst ht
      simp at hx
      simp [hx]
    | some b =>
      rw [h2] at h
      simp only at h
      by_cases h1 : f b > f a
      · rw [if_pos h1] at h
        simp at h
        subst h
        cases hx with
        | head => linarith
        | tail _ hx => exact ih h2 x hx
      · rw [if_neg h1] at h
        simp at h
        subst h
        push_neg at h1
        cases hx with
        | head => exact le_refl _
        | tail _ hx => exact le_trans (ih h2 x hx) h1

/-- C1: for every similarity function, query and catalog, best_match
returns the maximum-scoring catalog entry (scores computed on the
lower-cased strings) exactly when that entry's score is at least 80 and no
match otherwise, with the first-encountered entry winning ties: it
coincides with the matcher the specification describes. -/
theorem claim_c1 (score : String → String → ℚ) (query : String)
    (catalog : List CatalogEntry) :
    best_match score query catalog = match_spec score query catalog := by
  unfold best_match match_spec
  dsimp only
  rw [foldl_bestAcc (fun row => score (pyLower query) (pyLower row.producto)) catalog (none, -1)]
  cases h : firstMaxBy (fun row => score (pyLower query) (pyLower row.producto)) catalog with
  | none => norm_num
  | some e =>
    simp only
    by_cases h1 : score (pyLower query) (pyLower e.producto) > -1
    · rw [if_pos h1]
    · rw [if_neg h1]
      push_neg at h1
      rw [if_neg (by norm_num), if_neg (by linarith)]

lemma resolve_fold (score : String → String → ℚ) (catalog : List CatalogEntry) :
    ∀ (parts : List String) (acc : List Item × List String),
      parts.foldl (resolveStep score catalog) acc =
        (acc.1 ++ parts.filterMap (itemOf score catalog),
         acc.2 ++ (parts.filter
            (fun part => (best_match score (extract_qty part).1 catalog).isNone)).map warnMsg) := by
  intro parts
  induction parts with
  | nil => intro acc; simp
  | cons p t ih =>
    intro acc
    simp only [List.foldl_cons]
    rw [ih]
    cases h : best_match score (extract_qty p).1 catalog with
    | some m =>
      simp [resolveStep, itemOf, h, List.filterMap_cons, List.filter_cons]
    | none =>
      simp [resolveStep, itemOf, h, List.filterMap_cons, List.filter_cons]

/-- C4: resolution always yields a pair of items and warnings, each
fragment contributing exactly one of the two - the item built from the
matcher's entry and the extracted quantity when the matcher accepts the
cleaned description, else one warning carrying the fragment text - so no
fragment can prevent another from resolving, and the translation is a
total function, so no exception escapes. -/
theorem claim_c4 (score : String → String → ℚ) (text : String)
    (catalog : List CatalogEntry) :
    parse_items score text catalog =
      ((split_parts text).filterMap (itemOf score catalog),
       ((split_parts text).filter
          (fun part => (best_match score (extract_qty part).1 catalog).isNone)).map warnMsg) := by
  unfold parse_items
  rw [resolve_fold]
  simp

/-- C3 counterexample: on the text 5, a - two fragments after splitting,
the first of which has an empty cleaned description - parse_items does not
skip the empty-description fragment: it emits a warning for it (the
matcher, here instantiated with an exact-match scorer that like WRatio
scores an empty query below the floor, was consulted and said no). -/
theorem claim_c3_cex :
    split_parts "5, a" = ["5", "a"] ∧
    (extract_qty "5").1 = "" ∧
    parse_items eqScore "5, a" demoCatalog =
      ([(⟨"a", 0⟩, 1)], ["⚠️ No entendí “5”."]) := by
  refine ⟨by decide, by decide, by decide⟩

/-- C3 as amended: fragments whose cleaned description is empty are not
skipped; like every other fragment they are handed to the matcher
(resolution is total, so nothing is thrown), and whenever the matcher
rejects the empty description the fragment is reported as a warning,
however many fragments the split produced. -/
theorem claim_c3_amended (score : String → String → ℚ) (text : String)
    (catalog : List CatalogEntry) (part : String)
    (hmem : part ∈ split_parts text)
    (hempty : (extract_qty part).1 = "")
    (hnone : best_match score "" catalog = none) :
    warnMsg part ∈ (parse_items score text catalog).2 := by
  unfold parse_items
  rw [resolve_fold]
  simp only [List.nil_append]
  apply List.mem_map_of_mem
  rw [List.mem_filter]
  refine ⟨hmem, ?_⟩
  rw [hempty, hnone]
  rfl

theorem claim_c3_witness :
    warnMsg "5" ∈ (parse_items eqScore "5, a" demoCatalog).2 :=
  claim_c3_amended eqScore "5, a" demoCatalog "5" (by decide) (by decide) (by decide)

lemma digit_not_space {c : Char} (h : c.isDigit = true) : pySpace c = false := by
  cases hs : pySpace c
  · rfl
  · exfalso
    unfold pySpace at hs
    simp only [Bool.or_eq_true, decide_eq_true_eq] at hs
    rcases hs with (((((h1 | h1) | h1) | h1) | h1) | h1) <;> subst h1 <;>
      exact absurd h (by decide)

lemma takeWhile_digits (ds : List Char) (h : ∀ c ∈ ds, c.isDigit = true) :
    ds.takeWhile Char.isDigit = ds := by
  induction ds with
  | nil => rfl
  | cons c t ih =>
    rw [List.takeWhile_cons, h c (List.mem_cons_self _ _)]
    simp only [if_true]
    rw [ih (fun a ha => h a (List.mem_cons_of_mem _ ha))]

lemma dropWhile_concat_nondigit (ds : List Char) :
    ∀ (pre : List Char), (∀ a ∈ pre, a.isDigit = false) →
      ((pre ++ 'x' :: ds).dropWhile pySpace).takeWhile Char.isDigit = [] := by
  intro pre
  induction pre with
  | nil =>
    intro _
    rw [List.nil_append, List.dropWhile_cons, show pySpace 'x' = false from by decide]
    simp only [Bool.false_eq_true, if_false]
    rw [List.takeWhile_cons, show ('x').isDigit = false from by decide]
    rfl
  | cons a t ih =>
    intro hnd
    rw [List.cons_append, List.dropWhile_cons]
    by_cases hs : pySpace a = true
    · rw [hs]
      simp only [if_true]
      exact ih (fun x hx => hnd x (List.mem_cons_of_mem _ hx))
    · simp only [hs, Bool.false_eq_true, if_false]
      rw [List.takeWhile_cons, hnd a (List.mem_cons_self _ _)]
      rfl

lemma matchAt_none_concat (ds : List Char) (c : Char) (pre : List Char)
    (hc : c.isDigit = false)
    (hpre : ∀ a ∈ pre, a.isDigit = false) :
    matchAt (c :: (pre ++ 'x' :: ds)) = none := by
  have h2 : (c :: (pre ++ 'x' :: ds)).takeWhile Char.isDigit = [] := by
    rw [List.takeWhile_cons, hc]
    rfl
  by_cases hx : c = 'x' ∨ c = 'X'
  · simp only [matchAt, matchAlt1, if_pos hx]
    rw [dropWhile_concat_nondigit ds pre hpre]
    simp [matchAlt2, h2]
  · simp only [matchAt, matchAlt1, if_neg hx]
    simp [matchAlt2, h2]

lemma qtySubAux_skip_all : ∀ (l : List Char) (k : Nat), l.length ≤ k → qtySubAux l k = [] := by
  intro l
  induction l with
  | nil => intro k _; cases k <;> rfl
  | cons c t ih =>
    intro k hk
    cases k with
    | zero => simp at hk
    | succ k => exact ih k (by simpa using hk)

lemma scan_concat (ds : List Char) (hne : ds ≠ []) (hdig : ∀ c ∈ ds, c.isDigit = true) :
    ∀ (descL : List Char), (∀ c ∈ descL, c.isDigit = false) →
      qtySearch (descL ++ ' ' :: 'x' :: ds) = some (digitsVal ds) ∧
      qtySubAux (descL ++ ' ' :: 'x' :: ds) 0 = descL ++ [' '] := by
  have hsp_drop : ds.dropWhile pySpace = ds := by
    cases ds with
    | nil => rfl
    | cons d t =>
      rw [List.dropWhile_cons, digit_not_space (hdig d (List.mem_cons_self _ _))]
      rfl
  have hsp_take : ds.takeWhile pySpace = [] := by
    cases ds with
    | nil => rfl
    | cons d t =>
      rw [List.takeWhile_cons, digit_not_space (hdig d (List.mem_cons_self _ _))]
      rfl
  have hxm : matchAt ('x' :: ds) = some (digitsVal ds, 1 + 0 + ds.length) := by
    simp only [matchAt, matchAlt1, hsp_drop, hsp_take,
      takeWhile_digits ds hdig, List.length_nil, true_or, if_true]
    rw [if_neg hne]
  have hspace : matchAt (' ' :: 'x' :: ds) = none := by
    have h2 : (' ' :: 'x' :: ds).takeWhile Char.isDigit = [] := by
      rw [List.takeWhile_cons]
      rfl
    simp only [matchAt, matchAlt1, if_neg (show ¬(' ' = 'x' ∨ ' ' = 'X') from by decide)]
    simp [matchAlt2, h2]
  intro descL
  induction descL with
  | nil =>
    intro _
    constructor
    · rw [List.nil_append]
      simp only [qtySearch, hspace, hxm]
    · rw [List.nil_append]
      simp only [qtySubAux, hspace, hxm]
      rw [qtySubAux_skip_all ds (1 + 0 + ds.length - 1) (by omega)]
      rfl
  | cons c t ih =>
    intro h
    have hc : c.isDigit = false := h c (List.mem_cons_self _ _)
    have ht : ∀ a ∈ t, a.isDigit = false := fun a ha => h a (List.mem_cons_of_mem _ ha)
    have hpre : ∀ a ∈ t ++ [' '], a.isDigit = false := by
      intro a ha
      rcases List.mem_append.mp ha with h1 | h1
      · exact ht a h1
      · simp at h1
        subst h1
        decide
    have hnone : matchAt (c :: (t ++ ' ' :: 'x' :: ds)) = none := by
      have hr : t ++ ' ' :: 'x' :: ds = (t ++ [' ']) ++ 'x' :: ds := by simp
      rw [hr]
      exact matchAt_none_concat ds c (t ++ [' ']) hc hpre
    obtain ⟨ihs, ihb⟩ := ih ht
    constructor
    · rw [List.cons_append]
      simp only [qtySearch, hnone]
      exact ihs
    · rw [List.cons_append]
      simp only [qtySubAux, hnone]
      rw [ihb]
      rfl

lemma pyStrip_append_space (l : List Char) : pyStrip (l ++ [' ']) = pyStrip l := by
  unfold pyStrip
  rw [List.reverse_append]
  have h : pySpace ' ' = true := by decide
  simp [List.dropWhile_cons, h]

/-- C2 counterexample: extract_qty on a1 x5 - the claim's desc x N shape
with desc = a1, N = 5 - removes every quantity-pattern match (both the 1
of a1 and the x5), and on a  b x2 it does not collapse the inner double
space, so the claim's predicted outputs (a1, 5) and (a b, 2) are both
wrong. -/
theorem claim_c2_cex :
    extract_qty "a1 x5" = ("a", 1) ∧ (("a" : String), (1 : Nat)) ≠ ("a1", 5) ∧
    extract_qty "a  b x2" = ("a  b", 2) ∧ (("a  b" : String), (2 : Nat)) ≠ ("a b", 2) := by
  exact ⟨by decide, by decide, by decide, by decide⟩

/-- C2 as amended: for a description containing no digit (so that the only
quantity-pattern match in desc x N is the trailing x N token) and a
non-empty digit string of positive value, extract_qty returns the
description stripped of leading and trailing whitespace - internal
whitespace preserved, not collapsed - together with the parsed quantity;
in general every occurrence of the quantity pattern is removed, not only
the matched one, and the quantity is max(value of the first match, 1). -/
theorem claim_c2_amended (descL ds : List Char)
    (h1 : ∀ c ∈ descL, c.isDigit = false)
    (h2 : ds ≠ [])
    (h3 : ∀ c ∈ ds, c.isDigit = true)
    (h4 : 1 ≤ digitsVal ds) :
    extract_qty (String.mk (descL ++ ' ' :: 'x' :: ds)) =
      (String.mk (pyStrip descL), digitsVal ds) := by
  obtain ⟨hs, hb⟩ := scan_concat ds h2 h3 descL h1
  unfold extract_qty
  show (match qtySearch (descL ++ ' ' :: 'x' :: ds) with
    | none => (String.mk (descL ++ ' ' :: 'x' :: ds), 1)
    | some q => (String.mk (pyStrip (qtySubAux (descL ++ ' ' :: 'x' :: ds) 0)), Nat.max q 1)) = _
  rw [hs]
  simp only
  rw [hb, pyStrip_append_space, show Nat.max (digitsVal ds) 1 = digitsVal ds from Nat.max_eq_left h4]

theorem claim_c2_witness :
    extract_qty (String.mk (['r', 'e'] ++ ' ' :: 'x' :: ['3'])) =
      (String.mk (pyStrip ['r', 'e']), digitsVal ['3']) :=
  claim_c2_amended ['r', 'e'] ['3'] (by decide) (by decide) (by decide) (by decide)

lemma scanSameName_shift (name : String) :
    ∀ (l : List Item) (i : Nat),
      scanSameName name l i = (scanSameName name l 0).map (· + i) := by
  intro l
  induction l with
  | nil => intro i; rfl
  | cons p t ih =>
    intro i
    cases p with
    | mk pe pq =>
      simp only [scanSameName]
      by_cases h : pyLower pe.producto = name
      · rw [if_pos h, if_pos h]
        simp
      · rw [if_neg h, if_neg h]
        rw [ih (i + 1), ih 1]
        cases hsc : scanSameName name t 0 with
        | none => rfl
        | some j => simp; omega

lemma addLine_updateOrAppend (m : CatalogEntry) (q : Nat) :
    ∀ (items : List Item),
      (match scanSameName (pyLower m.producto) items 0 with
       | some i => items.set i ((items.getD i default).1, q)
       | none => items ++ [(m, q)]) = updateOrAppend items m q := by
  intro items
  induction items with
  | nil => rfl
  | cons p t ih =>
    cases p with
    | mk pe pq =>
      simp only [scanSameName, updateOrAppend]
      by_cases h : pyLower pe.producto = pyLower m.producto
      · rw [if_pos h, if_pos h]
        simp
      · rw [if_neg h, if_neg h]
        rw [scanSameName_shift (pyLower m.producto) t 1]
        cases hsc : scanSameName (pyLower m.producto) t 0 with
        | none =>
          rw [hsc] at ih
          simp only [Option.map_none']
          rw [← ih]
          simp
        | some j =>
          rw [hsc] at ih
          simp only [Option.map_some']
          rw [← ih]
          simp [List.getD_cons_succ]

/-- C5: a non-removal correction line behaves as the spec's correction
engine: when its cleaned description matches a catalog entry, the first
item with the same case-insensitive entry name gets its quantity
overwritten in place (no duplicate entry, position kept), a missing name
appends the new pair at the end, and a line with no catalog match leaves
the list unchanged. -/
theorem claim_c5 (score : String → String → ℚ) (catalog : List CatalogEntry)
    (items : List Item) (ln : String)
    (hline : parseRemoval ln = none) :
    correction_step score catalog items ln =
      (match best_match score (extract_qty ln).1 catalog with
       | none => items
       | some m => updateOrAppend items m (extract_qty ln).2) := by
  unfold correction_step
  rw [hline]
  simp only
  unfold applyAddLine
  cases h : best_match score (extract_qty ln).1 catalog with
  | none => rfl
  | some m =>
    simp only
    exact addLine_updateOrAppend m (extract_qty ln).2 items

theorem claim_c5_witness :
    correction_step eqScore remCatalog remItems "remera negra l x3" =
      (match best_match eqScore (extract_qty "remera negra l x3").1 remCatalog with
       | none => remItems
       | some m => updateOrAppend remItems m (extract_qty "remera negra l x3").2) :=
  claim_c5 eqScore remCatalog remItems "remera negra l x3" (by decide)

lemma firstMaxIV_eq_none {α : Type} (f : α → ℚ) :
    ∀ {l : List α}, firstMaxIV f l = none ↔ l = [] := by
  intro l
  cases l with
  | nil => simp [firstMaxIV]
  | cons a t =>
    simp only [firstMaxIV]
    cases h : firstMaxIV f t with
    | none => simp [h]
    | some b => simp only [h]; split <;> simp

lemma foldl_firstMaxIV {α : Type} (f : α → ℚ) :
    ∀ (l : List α) (k : Nat) (bi : Int) (bs : ℚ),
      l.foldl
        (fun (acc : Nat × Int × ℚ) a =>
          if f a > acc.2.2 then (acc.1 + 1, (acc.1 : Int), f a) else (acc.1 + 1, acc.2))
        (k, bi, bs) =
      (k + l.length, pickBest k bi bs (firstMaxIV f l)) := by
  intro l
  induction l with
  | nil =>
    intro k bi bs
    simp [firstMaxIV, pickBest]
  | cons a t ih =>
    intro k bi bs
    simp only [List.foldl_cons]
    by_cases hA : f a > bs
    · rw [if_pos hA, ih (k + 1) (k : Int) (f a)]
      cases h2 : firstMaxIV f t with
      | none =>
        have ht : t = [] := (firstMaxIV_eq_none f).mp h2
        subst ht
        simp only [firstMaxIV, pickBest, List.length_cons, List.length_nil]
        rw [if_pos hA]
        simp
      | some jv =>
        simp only [firstMaxIV, h2, List.length_cons]
        by_cases h1 : jv.2 > f a
        · rw [if_pos h1]
          simp only [pickBest]
          rw [if_pos h1, if_pos (show jv.2 > bs by linarith)]
          congr 1
          · omega
          · congr 1
            push_cast
            omega
        · rw [if_neg h1]
          simp only [pickBest]
          rw [if_neg h1, if_pos hA]
          congr 1
          omega
    · rw [if_neg hA, ih (k + 1) bi bs]
      cases h2 : firstMaxIV f t with
      | none =>
        have ht : t = [] := (firstMaxIV_eq_none f).mp h2
        subst ht
        simp only [firstMaxIV, pickBest, List.length_cons, List.length_nil]
        rw [if_neg hA]
      | some jv =>
        simp only [firstMaxIV, h2, List.length_cons]
        by_cases h1 : jv.2 > f a
        · rw [if_pos h1]
          simp only [pickBest]
          by_cases h3 : jv.2 > bs
          · rw [if_pos h3, if_pos h3]
            congr 1
            · omega
            · congr 1
              push_cast
              omega
          · rw [if_neg h3, if_neg h3]
            congr 1
            omega
        · rw [if_neg h1]
          simp only [pickBest]
          rw [if_neg (show ¬ jv.2 > bs by push_neg at hA h1 ⊢; linarith),
            if_neg (show ¬ f a > bs from hA)]
          congr 1
          omega

lemma firstMaxIV_val_mem {α : Type} (f : α → ℚ) :
    ∀ {l : List α} {jv : Nat × ℚ}, firstMaxIV f l = some jv → ∃ a ∈ l, f a = jv.2 := by
  intro l
  induction l with
  | nil => intro jv h; simp [firstMaxIV] at h
  | cons a t ih =>
    intro jv h
    simp only [firstMaxIV] at h
    cases h2 : firstMaxIV f t with
    | none =>
      rw [h2] at h
      simp at h
      exact ⟨a, List.mem_cons_self _ _, by rw [← h]⟩
    | some b =>
      rw [h2] at h
      simp only at h
      by_cases h1 : b.2 > f a
      · rw [if_pos h1] at h
        simp at h
        obtain ⟨c, hc, hfc⟩ := ih h2
        exact ⟨c, List.mem_cons_of_mem _ hc, by rw [hfc, ← h]⟩
      · rw [if_neg h1] at h
        simp at h
        exact ⟨a, List.mem_cons_self _ _, by rw [← h]⟩

lemma remove_best_eq (score : String → String → ℚ) (target : String)
    (items : List Item) (hscore : ∀ a b, (0 : ℚ) ≤ score a b) :
    remove_best score target items =
      removalResult items
        (firstMaxIV (fun it => score (pyLower target) (pyLower it.1.producto)) items) := by
  unfold remove_best
  dsimp only
  rw [foldl_firstMaxIV (fun it => score (pyLower target) (pyLower it.1.producto)) items 0 (-1) (-1)]
  cases hM : firstMaxIV (fun it => score (pyLower target) (pyLower it.1.producto)) items with
  | none =>
    simp only [pickBest, removalResult]
    norm_num
  | some jv =>
    obtain ⟨a, _, hfa⟩ := firstMaxIV_val_mem _ hM
    have hv : jv.2 > -1 := by
      have := hscore (pyLower target) (pyLower a.1.producto)
      rw [hfa] at this
      linarith
    simp only [pickBest]
    rw [if_pos hv]
    simp [removalResult]

/-- C6: a removal line deletes exactly the current item whose entry name
scores highest against the stripped removal target (first-encountered on
ties), with no 80-point floor involved, leaving the other items unchanged
and in order; on an empty item list the removal is a no-op.  The score
range hypothesis mirrors the 0-100 range of fuzz.WRatio. -/
theorem claim_c6 (score : String → String → ℚ) (catalog : List CatalogEntry)
    (items : List Item) (ln target : String)
    (hscore : ∀ a b, (0 : ℚ) ≤ score a b)
    (hrem : parseRemoval ln = some target) :
    correction_step score catalog items ln =
      removalResult items
        (firstMaxIV (fun it => score (pyLower target) (pyLower it.1.producto)) items) := by
  unfold correction_step
  rw [hrem]
  exact remove_best_eq score target items hscore

lemma eqScore_nonneg : ∀ a b, (0 : ℚ) ≤ eqScore a b := by
  intro a b
  unfold eqScore
  split <;> norm_num

theorem claim_c6_witness :
    correction_step eqScore remCatalog remItems "eliminar remera negra l" =
      removalResult remItems
        (firstMaxIV (fun it => eqScore (pyLower "remera negra l") (pyLower it.1.producto))
          remItems) :=
  claim_c6 eqScore remCatalog remItems "eliminar remera negra l" "remera negra l"
    eqScore_nonneg (by decide)

lemma hread_set_self : ∀ (h : List (List Item)) (j : Nat) (v : List Item),
    j < h.length → hread (h.set j v) j = v := by
  intro h
  induction h with
  | nil => intro j v hj; simp at hj
  | cons a t ih =>
    intro j v hj
    cases j with
    | zero => rfl
    | succ j =>
      show hread (a :: t.set j v) (j + 1) = v
      unfold hread
      rw [List.getD_cons_succ]
      exact ih j v (by simpa using hj)

lemma hread_set_ne : ∀ (h : List (List Item)) (j : Nat) (v : List Item) (i : Nat),
    i ≠ j → hread (h.set j v) i = hread h i := by
  intro h
  induction h with
  | nil => intro j v i _; rfl
  | cons a t ih =>
    intro j v i hij
    cases j with
    | zero =>
      cases i with
      | zero => exact absurd rfl hij
      | succ i => rfl
    | succ j =>
      cases i with
      | zero => rfl
      | succ i =>
        show hread (a :: t.set j v) (i + 1) = hread (a :: t) (i + 1)
        unfold hread
        rw [List.getD_cons_succ, List.getD_cons_succ]
        exact ih j v i (by omega)

lemma set_set_heap : ∀ (h : List (List Item)) (j : Nat) (a b : List Item),
    (h.set j a).set j b = h.set j b := by
  intro h
  induction h with
  | nil => intro j a b; rfl
  | cons c t ih =>
    intro j a b
    cases j with
    | zero => rfl
    | succ j =>
      show c :: (t.set j a).set j b = c :: t.set j b
      rw [ih j a b]

lemma set_hread_self : ∀ (h : List (List Item)) (j : Nat),
    j < h.length → h.set j (hread h j) = h := by
  intro h
  induction h with
  | nil => intro j hj; simp at hj
  | cons a t ih =>
    intro j hj
    cases j with
    | zero => rfl
    | succ j =>
      show a :: t.set j (hread (a :: t) (j + 1)) = a :: t
      have h2 : hread (a :: t) (j + 1) = hread t j := by
        unfold hread
        rw [List.getD_cons_succ]
      rw [h2, ih j (by simpa using hj)]

lemma hread_append_new : ∀ (h : List (List Item)) (v : List Item),
    hread (h ++ [v]) h.length = v := by
  intro h v
  induction h with
  | nil => rfl
  | cons a t ih =>
    show hread (a :: (t ++ [v])) (t.length + 1) = v
    unfold hread
    rw [List.getD_cons_succ]
    exact ih

lemma hread_append_left : ∀ (h : List (List Item)) (v : List Item) (i : Nat),
    i < h.length → hread (h ++ [v]) i = hread h i := by
  intro h
  induction h with
  | nil => intro v i hi; simp at hi
  | cons a t ih =>
    intro v i hi
    cases i with
    | zero => rfl
    | succ i =>
      show hread (a :: (t ++ [v])) (i + 1) = hread (a :: t) (i + 1)
      unfold hread
      rw [List.getD_cons_succ, List.getD_cons_succ]
      exact ih v i (by simpa using hi)

lemma fold_heap (score : String → String → ℚ) (catalog : List CatalogEntry) :
    ∀ (lines : List String) (hh : List (List Item)) (r : Nat), r < hh.length →
      lines.foldl (fun hh ln => hh.set r (correction_step score catalog (hread hh r) ln)) hh =
        hh.set r (lines.foldl (fun items ln => correction_step score catalog items ln)
          (hread hh r)) := by
  intro lines
  induction lines with
  | nil =>
    intro hh r hr
    simp only [List.foldl_nil]
    rw [set_hread_self hh r hr]
  | cons ln ls ih =>
    intro hh r hr
    simp only [List.foldl_cons]
    rw [ih (hh.set r (correction_step score catalog (hread hh r) ln)) r (by simpa using hr)]
    rw [hread_set_self hh r _ hr, set_set_heap]

/-- C7: applyCorrections is pure at the object level: the statement
items = current[:] copies the caller's list into a fresh object and every
mutation of the loop hits only that fresh object, so after the call the
caller's list object still holds its original elements in their original
order with their original quantities, the returned object is a different
address, and its value is the pure fold of the correction steps over the
original value; the catalog is only read, never written. -/
theorem claim_c7 (score : String → String → ℚ) (h : List (List Item)) (cur : Nat)
    (msg : String) (catalog : List CatalogEntry) (hcur : cur < h.length) :
    hread (heap_apply_corrections score h cur msg catalog).1 cur = hread h cur ∧
    (heap_apply_corrections score h cur msg catalog).2 ≠ cur ∧
    hread (heap_apply_corrections score h cur msg catalog).1
        (heap_apply_corrections score h cur msg catalog).2 =
      apply_corrections score (hread h cur) msg catalog := by
  unfold heap_apply_corrections
  dsimp only
  rw [fold_heap score catalog (split_lines msg) (h ++ [hread h cur]) h.length (by simp)]
  refine ⟨?_, by omega, ?_⟩
  · rw [hread_set_ne _ _ _ _ (by omega)]
    exact hread_append_left h (hread h cur) cur hcur
  · rw [hread_set_self _ _ _ (by simp), hread_append_new]
    rfl

theorem claim_c7_witness :
    hread (heap_apply_corrections eqScore [remItems] 0 "remera negra l x3" remCatalog).1 0 =
        hread [remItems] 0 ∧
      (heap_apply_corrections eqScore [remItems] 0 "remera negra l x3" remCatalog).2 ≠ 0 ∧
      hread (heap_apply_corrections eqScore [remItems] 0 "remera negra l x3" remCatalog).1
          (heap_apply_corrections eqScore [remItems] 0 "remera negra l x3" remCatalog).2 =
        apply_corrections eqScore (hread [remItems] 0) "remera negra l x3" remCatalog :=
  claim_c7 eqScore [remItems] 0 "remera negra l x3" remCatalog (by decide)

lemma extract_qty_ge_one (s : String) : 1 ≤ (extract_qty s).2 := by
  cases h : qtySearch s.data with
  | none => simp [extract_qty, h]
  | some q => simp [extract_qty, h, Nat.le_max_right]

lemma parse_items_qty (score : String → String → ℚ) (text : String)
    (catalog : List CatalogEntry) :
    ∀ p ∈ (parse_items score text catalog).1, 1 ≤ p.2 := by
  intro p hp
  unfold parse_items at hp
  rw [resolve_fold] at hp
  simp only [List.nil_append] at hp
  obtain ⟨part, hpart, hmk⟩ := List.mem_filterMap.mp hp
  cases h : best_match score (extract_qty part).1 catalog with
  | none => rw [itemOf, h] at hmk; simp at hmk
  | some m =>
    rw [itemOf, h] at hmk
    simp at hmk
    rw [← hmk]
    exact extract_qty_ge_one part

lemma correction_step_qty (score : String → String → ℚ) (catalog : List CatalogEntry)
    (items : List Item) (ln : String) (hq : ∀ p ∈ items, 1 ≤ p.2) :
    ∀ p ∈ correction_step score catalog items ln, 1 ≤ p.2 := by
  intro p hp
  unfold correction_step at hp
  cases hr : parseRemoval ln with
  | some target =>
    rw [hr] at hp
    simp only at hp
    simp only [remove_best] at hp
    split at hp
    · exact hq p ((List.eraseIdx_sublist _ _).subset hp)
    · exact hq p hp
  | none =>
    rw [hr] at hp
    simp only at hp
    unfold applyAddLine at hp
    cases hb : best_match score (extract_qty ln).1 catalog with
    | none =>
      rw [hb] at hp
      exact hq p hp
    | some m =>
      rw [hb] at hp
      simp only at hp
      cases hs : scanSameName (pyLower m.producto) items 0 with
      | some i =>
        rw [hs] at hp
        simp only at hp
        rcases List.mem_or_eq_of_mem_set hp with h | h
        · exact hq p h
        · rw [h]
          exact extract_qty_ge_one ln
      | none =>
        rw [hs] at hp
        simp only at hp
        rcases List.mem_append.mp hp with h | h
        · exact hq p h
        · simp at h
          rw [h]
          exact extract_qty_ge_one ln

lemma apply_corrections_qty (score : String → String → ℚ)
    (catalog : List CatalogEntry) :
    ∀ (lines : List String) (current : List Item), (∀ p ∈ current, 1 ≤ p.2) →
      ∀ p ∈ lines.foldl (fun items ln => correction_step score catalog items ln) current,
        1 ≤ p.2 := by
  intro lines
  induction lines with
  | nil => intro current hq p hp; exact hq p hp
  | cons ln ls ih =>
    intro current hq p hp
    simp only [List.foldl_cons] at hp
    exact ih (correction_step score catalog current ln)
      (correction_step_qty score catalog current ln hq) p hp

/-- C8: the quantity produced by extract_qty is always at least 1, every
item resolve produces carries quantity at least 1, and apply_corrections
preserves the at-least-1 invariant: when every pair of the current list
has quantity at least 1, so does every pair of its output (the pairs it
creates take their quantity from extract_qty). -/
theorem claim_c8 :
    (∀ s : String, 1 ≤ (extract_qty s).2) ∧
    (∀ (score : String → String → ℚ) (text : String) (catalog : List CatalogEntry),
      ∀ p ∈ (parse_items score text catalog).1, 1 ≤ p.2) ∧
    (∀ (score : String → String → ℚ) (current : List Item) (msg : String)
       (catalog : List CatalogEntry), (∀ p ∈ current, 1 ≤ p.2) →
      ∀ p ∈ apply_corrections score current msg catalog, 1 ≤ p.2) := by
  refine ⟨extract_qty_ge_one, parse_items_qty, ?_⟩
  intro score current msg catalog hq
  exact apply_corrections_qty score catalog (split_lines msg) current hq

theorem claim_c8_witness : 1 ≤ (extract_qty "x0").2 :=
  claim_c8.1 "x0"

/-- C9: while a session waits for the discount, an input is accepted
exactly when, after the comma-to-dot substitution, it parses as a decimal
number within 0..100 inclusive (both separators work, as the two concrete
parses show); any rejected input re-prompts and returns the very same
session - client name, items and document kind untouched - while an
accepted one finalizes the quote and clears the session. -/
theorem claim_c9 (score : String → String → ℚ) (cat : List CatalogEntry)
    (st : Session) (text : String)
    (h1 : st.askClient = false) (h2 : st.askItems = false)
    (h3 : st.askReview = false) (h4 : st.askDisc = true) :
    (discountAccepted (pyStripStr text) = false →
      route_text score cat st text = (st, Reply.invalidDiscount)) ∧
    (∀ d : ℚ, parse_discount (pyStripStr text) = some d → 0 ≤ d → d ≤ 100 →
      route_text score cat st text =
        (emptySession, Reply.presupuestoPdf d (st.cliente.getD "") (st.items.getD []))) ∧
    (discountAccepted (pyStripStr text) = true →
      (route_text score cat st text).1 = emptySession) ∧
    parse_discount "12,5" = some ((25 : ℚ) / 2) ∧
    parse_discount "12.5" = some ((25 : ℚ) / 2) ∧
    parse_discount "150" = some 150 ∧
    discountAccepted "150" = false ∧
    parse_discount "abc" = none := by
  have hc1 : parse_discount "12,5" = some ((25 : ℚ) / 2) := by
    simp [parse_discount, pyFloat, pyFloatCore, pyStrip, pySpace, digitsVal]
    norm_num
  have hc2 : parse_discount "12.5" = some ((25 : ℚ) / 2) := by
    simp [parse_discount, pyFloat, pyFloatCore, pyStrip, pySpace, digitsVal]
    norm_num
  have hc3 : parse_discount "150" = some 150 := by
    simp [parse_discount, pyFloat, pyFloatCore, pyStrip, pySpace, digitsVal]
  have hc4 : discountAccepted "150" = false := by
    unfold discountAccepted
    rw [hc3]
    have h2 : ¬ ((150 : ℚ) ≤ 100) := by norm_num
    simp [h2]
  have hc5 : parse_discount "abc" = none := by
    simp [parse_discount, pyFloat, pyFloatCore, pyStrip, pySpace, digitsVal]
  refine ⟨?_, ?_, ?_, hc1, hc2, hc3, hc4, hc5⟩
  · intro hacc
    cases hpd : parse_discount (pyStripStr text) with
    | none => simp [route_text, h1, h2, h3, h4, hpd]
    | some d =>
      have hnot : ¬(0 ≤ d ∧ d ≤ 100) := by
        intro hd
        unfold discountAccepted at hacc
        rw [hpd] at hacc
        simp [hd.1, hd.2] at hacc
      simp [route_text, h1, h2, h3, h4, hpd, hnot]
  · intro d hpd hd0 hd1
    simp [route_text, h1, h2, h3, h4, hpd, hd0, hd1]
  · intro hacc
    cases hpd : parse_discount (pyStripStr text) with
    | none =>
      unfold discountAccepted at hacc
      rw [hpd] at hacc
      simp at hacc
    | some d =>
      unfold discountAccepted at hacc
      rw [hpd] at hacc
      simp only [Bool.and_eq_true, decide_eq_true_eq] at hacc
      simp [route_text, h1, h2, h3, h4, hpd, hacc.1, hacc.2]

theorem claim_c9_witness :
    route_text eqScore [] discSession "abc" = (discSession, Reply.invalidDiscount) :=
  (claim_c9 eqScore [] discSession "abc" rfl rfl rfl rfl).1 (by decide)

/-- C10: a catalog row is dropped exactly when its product name strips to
blank; kept rows carry the stripped name and the coerced price, where the
string coercion deletes every dot and then turns commas into dots before
parsing, so the comma-decimal 10,5 reads as 10.5 while the dot-decimal
10.5 reads as 105 (dots act as thousands separators, as 1.234,5 shows);
a string still unparseable after the substitution, or an absent cell,
coerces to 0 with the row kept. -/
theorem claim_c10 :
    (∀ r : RawRow, coerceRow r = none ↔ pyStrip r.producto.data = []) ∧
    (∀ r : RawRow, pyStrip r.producto.data ≠ [] →
      coerceRow r = some ⟨String.mk (pyStrip r.producto.data), coercePrice r.precio⟩) ∧
    coercePrice (PriceField.strVal "10,5") = (21 : ℚ) / 2 ∧
    coercePrice (PriceField.strVal "10.5") = 105 ∧
    coercePrice (PriceField.strVal "1.234,5") = (2469 : ℚ) / 2 ∧
    coercePrice (PriceField.strVal "abc") = 0 ∧
    coercePrice PriceField.absent = 0 ∧
    build_catalog [⟨"A", PriceField.strVal "10.5"⟩, ⟨"  ", PriceField.strVal "7"⟩] =
      [⟨"A", 105⟩] := by
  refine ⟨?_, ?_, ?_, ?_, ?_, ?_, rfl, ?_⟩
  · intro r
    unfold coerceRow
    by_cases h : pyStrip r.producto.data = [] <;> simp [h]
  · intro r h
    unfold coerceRow
    rw [if_neg h]
  · simp [coercePrice, pyFloat, pyFloatCore, pyStrip, pySpace, digitsVal]
    norm_num
  · simp [coercePrice, pyFloat, pyFloatCore, pyStrip, pySpace, digitsVal]
  · simp [coercePrice, pyFloat, pyFloatCore, pyStrip, pySpace, digitsVal]
    norm_num
  · simp [coercePrice, pyFloat, pyFloatCore, pyStrip, pySpace, digitsVal]
  · simp [build_catalog, coerceRow, coercePrice, pyFloat, pyFloatCore, pyStrip, pySpace,
      digitsVal]

theorem claim_c10_witness :
    coerceRow ⟨" ", PriceField.absent⟩ = none :=
  (claim_c10.1 ⟨" ", PriceField.absent⟩).mpr (by decide)

end OcasoBot
